import Mathlib

/-!
Verification of the Beverley bitcrusher DSP core
(src/modules/beverley/src/dsp.rs) against its specification.

The `f32` arithmetic of the source is embedded over `ℚ` (exact rational
arithmetic).  The library function `f32::powf`, which is not part of the
repository, is modelled as an explicit function parameter `powf`; theorems
that exercise it assume only the IEEE facts actually used (`powf x 1 = x`,
`powf 0 e = 0` for `e > 0`).  Transcendental envelope coefficients
(computed in `ExponentialPeak::new` via `e^(-1/τ)`) are likewise taken as
parameters constrained by the bounds they satisfy.
-/

/-- Quantizer state: mirrors `struct BitCrusher` in dsp.rs. -/
structure BitCrusher where
  levels : ℤ
  step : ℚ
  step_reciprocal : ℚ
  steepness : ℚ
  power : ℚ
deriving DecidableEq

/-- Mirrors `BitCrusher::set_levels`. -/
def BitCrusher.set_levels (c : BitCrusher) (levels : ℤ) : BitCrusher :=
  { c with
    levels := levels
    step := 1 / (levels : ℚ)
    step_reciprocal := (levels : ℚ) }

/-- Mirrors `BitCrusher::set_steepness`: stores both arguments. -/
def BitCrusher.set_steepness (c : BitCrusher) (steepness power : ℚ) : BitCrusher :=
  { c with steepness := steepness, power := power }

/-- Mirrors `BitCrusher::new` (initial fields, then `set_levels(15)`). -/
def BitCrusher.new : BitCrusher :=
  BitCrusher.set_levels
    { levels := 1, step := 1, step_reciprocal := 1, steepness := 0, power := 1 } 15

/-- Mirrors `BitCrusher::sigmoidish` (the softening function). -/
def BitCrusher.sigmoidish (c : BitCrusher) (x : ℚ) : ℚ :=
  if c.steepness = 0 then x
  else
    let smooth := x * x * (3 - 2 * x)
    if c.steepness < 1 / 2 then
      let blend := c.steepness * 2
      (1 - blend) * x + blend * smooth
    else
      let step := if x ≥ 1 / 2 then (1 : ℚ) else 0
      let blend := (c.steepness - 1 / 2) * 2
      (1 - blend) * smooth + blend * step

/-- Mirrors `BitCrusher::crush`. -/
def BitCrusher.crush (c : BitCrusher) (input : ℚ) : ℚ :=
  let scaled := input * c.step_reciprocal
  let low : ℤ := ⌊scaled⌋
  let high : ℤ := ⌈scaled⌉
  let quantized_low := (low : ℚ) * c.step
  if low = high then quantized_low
  else
    let interval_fraction := (input - quantized_low) * c.step_reciprocal
    let smoothed_fraction := c.sigmoidish interval_fraction
    quantized_low + smoothed_fraction * c.step

/-- C1: the softening function equals the three-regime spec formula,
with the hard step H(t) equal to 0 for t < 1/2 and 1 for t ≥ 1/2. -/
theorem sigmoidish_eq_spec (c : BitCrusher) (t : ℚ)
    (hs0 : 0 ≤ c.steepness) (hs1 : c.steepness ≤ 1)
    (ht0 : 0 ≤ t) (ht1 : t ≤ 1) :
    (c.steepness = 0 → c.sigmoidish t = t) ∧
    (0 < c.steepness → c.steepness < 1 / 2 →
      c.sigmoidish t = (1 - 2 * c.steepness) * t +
        2 * c.steepness * (3 * t ^ 2 - 2 * t ^ 3)) ∧
    (1 / 2 ≤ c.steepness →
      c.sigmoidish t = (1 - 2 * (c.steepness - 1 / 2)) * (3 * t ^ 2 - 2 * t ^ 3) +
        2 * (c.steepness - 1 / 2) * (if t < 1 / 2 then 0 else 1)) := by
  refine ⟨?_, ?_, ?_⟩
  · intro h; simp [BitCrusher.sigmoidish, h]
  · intro h1 h2
    simp only [BitCrusher.sigmoidish, ge_iff_le]
    rw [if_neg (by linarith : ¬ c.steepness = 0), if_pos h2]
    ring
  · intro h
    simp only [BitCrusher.sigmoidish, ge_iff_le]
    rw [if_neg (by linarith : ¬ c.steepness = 0),
      if_neg (by linarith : ¬ c.steepness < 1 / 2)]
    rcases lt_or_le t (1 / 2) with ht | ht
    · rw [if_neg (not_le.mpr ht), if_pos ht]
      ring
    · rw [if_pos ht, if_neg (not_lt.mpr ht)]
      ring

/-- The cubic smoothstep is nonnegative on the unit interval. -/
theorem smoothstep_nonneg (u : ℚ) (h0 : 0 ≤ u) (h1 : u ≤ 1) :
    0 ≤ u * u * (3 - 2 * u) := by
  nlinarith

/-- The cubic smoothstep is at most one on the unit interval. -/
theorem smoothstep_le_one (u : ℚ) (h0 : 0 ≤ u) (h1 : u ≤ 1) :
    u * u * (3 - 2 * u) ≤ 1 := by
  nlinarith [sq_nonneg (1 - u)]

/-- The cubic smoothstep is monotone on the unit interval. -/
theorem smoothstep_mono (u v : ℚ) (h0 : 0 ≤ u) (huv : u ≤ v) (hv : v ≤ 1) :
    u * u * (3 - 2 * u) ≤ v * v * (3 - 2 * v) := by
  have hd : (0 : ℚ) ≤ v - u := sub_nonneg.mpr huv
  have hu1 : u ≤ 1 := le_trans huv hv
  have hv0 : (0 : ℚ) ≤ v := le_trans h0 huv
  nlinarith [mul_nonneg hd (mul_nonneg h0 (sub_nonneg.mpr hu1)),
    mul_nonneg hd (mul_nonneg hv0 (sub_nonneg.mpr hv)),
    mul_nonneg hd (mul_nonneg h0 (sub_nonneg.mpr hv)),
    mul_nonneg hd (mul_nonneg hv0 (sub_nonneg.mpr hu1))]

/-- The softening function maps the unit interval into itself (lower bound). -/
theorem sigmoidish_nonneg (c : BitCrusher) (u : ℚ)
    (hs0 : 0 ≤ c.steepness) (hs1 : c.steepness ≤ 1)
    (hu0 : 0 ≤ u) (hu1 : u ≤ 1) : 0 ≤ c.sigmoidish u := by
  have hsm := smoothstep_nonneg u hu0 hu1
  simp only [BitCrusher.sigmoidish]
  split_ifs with h1 h2 h3
  · exact hu0
  · nlinarith
  · nlinarith
  · nlinarith

/-- The softening function maps the unit interval into itself (upper bound). -/
theorem sigmoidish_le_one (c : BitCrusher) (u : ℚ)
    (hs0 : 0 ≤ c.steepness) (hs1 : c.steepness ≤ 1)
    (hu0 : 0 ≤ u) (hu1 : u ≤ 1) : c.sigmoidish u ≤ 1 := by
  have hsm := smoothstep_le_one u hu0 hu1
  have hsm0 := smoothstep_nonneg u hu0 hu1
  simp only [BitCrusher.sigmoidish]
  split_ifs with h1 h2 h3
  · exact hu1
  · nlinarith
  · nlinarith
  · nlinarith

/-- The softening function is monotone on the unit interval for steepness
in the unit interval. -/
theorem sigmoidish_mono (c : BitCrusher) (u v : ℚ)
    (hs0 : 0 ≤ c.steepness) (hs1 : c.steepness ≤ 1)
    (hu0 : 0 ≤ u) (huv : u ≤ v) (hv1 : v ≤ 1) :
    c.sigmoidish u ≤ c.sigmoidish v := by
  have hu1 : u ≤ 1 := le_trans huv hv1
  have hv0 : (0 : ℚ) ≤ v := le_trans hu0 huv
  have hsm := smoothstep_mono u v hu0 huv hv1
  have hsmu0 := smoothstep_nonneg u hu0 hu1
  have hsmu1 := smoothstep_le_one u hu0 hu1
  have hsmv0 := smoothstep_nonneg v hv0 hv1
  have hsmv1 := smoothstep_le_one v hv0 hv1
  simp only [BitCrusher.sigmoidish]
  split_ifs with h1 h2 h3 h4
  · exact huv
  · nlinarith
  · nlinarith
  · linarith
  · nlinarith
  · nlinarith

/-- Rewriting of the interval fraction used inside crush. -/
theorem interval_fraction_eq (n L x : ℚ) (hn : n ≠ 0) :
    (x - L * (1 / n)) * n = x * n - L := by
  field_simp

/-- Lower bound for crush: the output never drops below the low grid
level of the input's interval. -/
theorem crush_lower_bound (c : BitCrusher) (x : ℚ)
    (hstep : c.step = 1 / (c.levels : ℚ)) (hrec : c.step_reciprocal = (c.levels : ℚ))
    (hN : 1 ≤ c.levels) (hs0 : 0 ≤ c.steepness) (hs1 : c.steepness ≤ 1) :
    (⌊x * (c.levels : ℚ)⌋ : ℚ) * (1 / (c.levels : ℚ)) ≤ c.crush x := by
  have hn : (0 : ℚ) < (c.levels : ℚ) := by
    exact_mod_cast lt_of_lt_of_le Int.zero_lt_one hN
  have hinv : (0 : ℚ) < 1 / (c.levels : ℚ) := by positivity
  simp only [BitCrusher.crush, hstep, hrec]
  split_ifs with h
  · exact le_refl _
  · rw [interval_fraction_eq _ _ _ (ne_of_gt hn)]
    have h0 : 0 ≤ x * (c.levels : ℚ) - (⌊x * (c.levels : ℚ)⌋ : ℚ) := by
      have := Int.floor_le (x * (c.levels : ℚ)); linarith
    have h1 : x * (c.levels : ℚ) - (⌊x * (c.levels : ℚ)⌋ : ℚ) ≤ 1 := by
      have := Int.lt_floor_add_one (x * (c.levels : ℚ)); push_cast at this; linarith
    have hσ := sigmoidish_nonneg c _ hs0 hs1 h0 h1
    nlinarith [mul_nonneg hσ hinv.le]

/-- Upper bound for crush: the output never exceeds the high grid level
of the input's interval. -/
theorem crush_upper_bound (c : BitCrusher) (x : ℚ)
    (hstep : c.step = 1 / (c.levels : ℚ)) (hrec : c.step_reciprocal = (c.levels : ℚ))
    (hN : 1 ≤ c.levels) (hs0 : 0 ≤ c.steepness) (hs1 : c.steepness ≤ 1) :
    c.crush x ≤ ((⌊x * (c.levels : ℚ)⌋ : ℚ) + 1) * (1 / (c.levels : ℚ)) := by
  have hn : (0 : ℚ) < (c.levels : ℚ) := by
    exact_mod_cast lt_of_lt_of_le Int.zero_lt_one hN
  have hinv : (0 : ℚ) < 1 / (c.levels : ℚ) := by positivity
  simp only [BitCrusher.crush, hstep, hrec]
  split_ifs with h
  · nlinarith
  · rw [interval_fraction_eq _ _ _ (ne_of_gt hn)]
    have h0 : 0 ≤ x * (c.levels : ℚ) - (⌊x * (c.levels : ℚ)⌋ : ℚ) := by
      have := Int.floor_le (x * (c.levels : ℚ)); linarith
    have h1 : x * (c.levels : ℚ) - (⌊x * (c.levels : ℚ)⌋ : ℚ) ≤ 1 := by
      have := Int.lt_floor_add_one (x * (c.levels : ℚ)); push_cast at this; linarith
    have hσ := sigmoidish_le_one c _ hs0 hs1 h0 h1
    nlinarith [mul_le_mul_of_nonneg_right hσ hinv.le]

/-- Crush stays within one quantization step of its input. -/
theorem crush_within_one_step (c : BitCrusher) (x : ℚ)
    (hstep : c.step = 1 / (c.levels : ℚ)) (hrec : c.step_reciprocal = (c.levels : ℚ))
    (hN : 1 ≤ c.levels) (hs0 : 0 ≤ c.steepness) (hs1 : c.steepness ≤ 1) :
    |c.crush x - x| ≤ 1 / (c.levels : ℚ) := by
  have hn : (0 : ℚ) < (c.levels : ℚ) := by
    exact_mod_cast lt_of_lt_of_le Int.zero_lt_one hN
  have hinv : (0 : ℚ) < 1 / (c.levels : ℚ) := by positivity
  have hlow := crush_lower_bound c x hstep hrec hN hs0 hs1
  have hhigh := crush_upper_bound c x hstep hrec hN hs0 hs1
  have hfl : (⌊x * (c.levels : ℚ)⌋ : ℚ) ≤ x * (c.levels : ℚ) :=
    Int.floor_le (x * (c.levels : ℚ))
  have hfl1 : x * (c.levels : ℚ) < (⌊x * (c.levels : ℚ)⌋ : ℚ) + 1 := by
    have := Int.lt_floor_add_one (x * (c.levels : ℚ)); push_cast at this; linarith
  have hxlow : (⌊x * (c.levels : ℚ)⌋ : ℚ) * (1 / (c.levels : ℚ)) ≤ x := by
    have h := mul_le_mul_of_nonneg_right hfl hinv.le
    have hx : x * (c.levels : ℚ) * (1 / (c.levels : ℚ)) = x := by
      field_simp
    rw [hx] at h; exact h
  have hxhigh : x ≤ ((⌊x * (c.levels : ℚ)⌋ : ℚ) + 1) * (1 / (c.levels : ℚ)) := by
    have h := mul_le_mul_of_nonneg_right hfl1.le hinv.le
    have hx : x * (c.levels : ℚ) * (1 / (c.levels : ℚ)) = x := by
      field_simp
    rw [hx] at h; exact h
  rw [abs_le]
  constructor
  · nlinarith
  · nlinarith

/-- Crush is monotone non-decreasing for a consistently configured
quantizer with steepness in the unit interval. -/
theorem crush_mono_aux (c : BitCrusher) (x y : ℚ)
    (hstep : c.step = 1 / (c.levels : ℚ)) (hrec : c.step_reciprocal = (c.levels : ℚ))
    (hN : 1 ≤ c.levels) (hs0 : 0 ≤ c.steepness) (hs1 : c.steepness ≤ 1)
    (hxy : x ≤ y) :
    c.crush x ≤ c.crush y := by
  have hn : (0 : ℚ) < (c.levels : ℚ) := by
    exact_mod_cast lt_of_lt_of_le Int.zero_lt_one hN
  have hinv : (0 : ℚ) < 1 / (c.levels : ℚ) := by positivity
  have hmulxy : x * (c.levels : ℚ) ≤ y * (c.levels : ℚ) :=
    mul_le_mul_of_nonneg_right hxy hn.le
  have hfloor : ⌊x * (c.levels : ℚ)⌋ ≤ ⌊y * (c.levels : ℚ)⌋ :=
    Int.floor_le_floor hmulxy
  rcases lt_or_eq_of_le hfloor with hlt | heq
  · have h1 := crush_upper_bound c x hstep hrec hN hs0 hs1
    have h2 := crush_lower_bound c y hstep hrec hN hs0 hs1
    have hcast : (⌊x * (c.levels : ℚ)⌋ : ℚ) + 1 ≤ (⌊y * (c.levels : ℚ)⌋ : ℚ) := by
      exact_mod_cast hlt
    have h3 := mul_le_mul_of_nonneg_right hcast hinv.le
    linarith
  · have hflx : (⌊x * (c.levels : ℚ)⌋ : ℚ) ≤ x * (c.levels : ℚ) :=
      Int.floor_le (x * (c.levels : ℚ))
    have hfly : (⌊y * (c.levels : ℚ)⌋ : ℚ) ≤ y * (c.levels : ℚ) :=
      Int.floor_le (y * (c.levels : ℚ))
    have hflx1 : x * (c.levels : ℚ) < (⌊x * (c.levels : ℚ)⌋ : ℚ) + 1 := by
      have := Int.lt_floor_add_one (x * (c.levels : ℚ)); push_cast at this; linarith
    have hfly1 : y * (c.levels : ℚ) < (⌊y * (c.levels : ℚ)⌋ : ℚ) + 1 := by
      have := Int.lt_floor_add_one (y * (c.levels : ℚ)); push_cast at this; linarith
    have hcastq : ((⌊x * (c.levels : ℚ)⌋ : ℤ) : ℚ) = ((⌊y * (c.levels : ℚ)⌋ : ℤ) : ℚ) := by
      exact_mod_cast heq
    simp only [BitCrusher.crush, hstep, hrec]
    by_cases hgx : ⌊x * (c.levels : ℚ)⌋ = ⌈x * (c.levels : ℚ)⌉ <;>
      by_cases hgy : ⌊y * (c.levels : ℚ)⌋ = ⌈y * (c.levels : ℚ)⌉
    · rw [if_pos hgx, if_pos hgy, hcastq]
    · rw [if_pos hgx, if_neg hgy, interval_fraction_eq _ _ _ (ne_of_gt hn)]
      have h0 : 0 ≤ y * (c.levels : ℚ) - (⌊y * (c.levels : ℚ)⌋ : ℚ) := by linarith
      have h1 : y * (c.levels : ℚ) - (⌊y * (c.levels : ℚ)⌋ : ℚ) ≤ 1 := by linarith
      have hσ := sigmoidish_nonneg c _ hs0 hs1 h0 h1
      nlinarith [mul_nonneg hσ hinv.le]
    · exfalso
      have hyint : (⌊y * (c.levels : ℚ)⌋ : ℚ) = y * (c.levels : ℚ) := by
        have hc := Int.le_ceil (y * (c.levels : ℚ))
        rw [← hgy] at hc
        linarith
      have hxne : (⌊x * (c.levels : ℚ)⌋ : ℚ) ≠ x * (c.levels : ℚ) := by
        intro hcontra
        apply hgx
        rw [← hcontra, Int.floor_intCast, Int.ceil_intCast]
      have hxlt : (⌊x * (c.levels : ℚ)⌋ : ℚ) < x * (c.levels : ℚ) :=
        lt_of_le_of_ne hflx hxne
      linarith
    · rw [if_neg hgx, if_neg hgy, interval_fraction_eq _ _ _ (ne_of_gt hn),
        interval_fraction_eq _ _ _ (ne_of_gt hn)]
      have h0 : 0 ≤ x * (c.levels : ℚ) - (⌊x * (c.levels : ℚ)⌋ : ℚ) := by linarith
      have huv : x * (c.levels : ℚ) - (⌊x * (c.levels : ℚ)⌋ : ℚ) ≤
          y * (c.levels : ℚ) - (⌊y * (c.levels : ℚ)⌋ : ℚ) := by linarith
      have h1 : y * (c.levels : ℚ) - (⌊y * (c.levels : ℚ)⌋ : ℚ) ≤ 1 := by linarith
      have hσ := sigmoidish_mono c _ _ hs0 hs1 h0 huv h1
      nlinarith [mul_le_mul_of_nonneg_right hσ hinv.le]

/-- C5: for a fixed configuration with level count at least 1 and
steepness in the unit interval, crush is monotone non-decreasing on
inputs in the unit interval. -/
theorem crush_monotone (c : BitCrusher) (N : ℤ) (x y : ℚ)
    (hN : 1 ≤ N) (hs0 : 0 ≤ c.steepness) (hs1 : c.steepness ≤ 1)
    (hx0 : 0 ≤ x) (hxy : x ≤ y) (hy1 : y ≤ 1) :
    (c.set_levels N).crush x ≤ (c.set_levels N).crush y :=
  crush_mono_aux (c.set_levels N) x y rfl rfl hN hs0 hs1 hxy

/-- Witness for C5: a 3-level quantizer with steepness 1/2 is monotone
from 1/4 to 1/2. -/
theorem crush_monotone_witness :
    (BitCrusher.new.set_levels 3).crush (1 / 4) ≤
      (BitCrusher.new.set_levels 3).crush (1 / 2) :=
  crush_monotone BitCrusher.new 3 (1 / 4) (1 / 2) (by norm_num)
    (by show (0 : ℚ) ≤ 0; norm_num) (by show (0 : ℚ) ≤ 1; norm_num)
    (by norm_num) (by norm_num) (by norm_num)

/-- C4: quantizer output at an exact grid point k/N is k/N, with no
smoothing contribution. -/
theorem crush_grid_exact (c : BitCrusher) (N k : ℤ)
    (hN : 1 ≤ N) (hk0 : 0 ≤ k) (hkN : k ≤ N) :
    (c.set_levels N).crush ((k : ℚ) / (N : ℚ)) = (k : ℚ) / (N : ℚ) := by
  have hN0 : (0 : ℚ) < (N : ℚ) := by exact_mod_cast lt_of_lt_of_le Int.zero_lt_one hN
  simp only [BitCrusher.crush, BitCrusher.set_levels]
  rw [div_mul_cancel₀ _ (ne_of_gt hN0)]
  rw [Int.floor_intCast, Int.ceil_intCast, if_pos rfl]
  rw [mul_one_div]

/-- Witness for C4: a 3-level quantizer returns 2/3 exactly at input 2/3. -/
theorem crush_grid_exact_witness :
    (BitCrusher.new.set_levels 3).crush ((2 : ℚ) / 3) = (2 : ℚ) / 3 :=
  crush_grid_exact BitCrusher.new 3 2 (by norm_num) (by norm_num) (by norm_num)

/-- Crush reads only the step fields and the steepness, never the power
field, so it is invariant under changes of power alone. -/
theorem crush_congr_except_power (c1 c2 : BitCrusher) (x : ℚ)
    (hst : c1.step = c2.step) (hsr : c1.step_reciprocal = c2.step_reciprocal)
    (hs : c1.steepness = c2.steepness) :
    c1.crush x = c2.crush x := by
  unfold BitCrusher.crush BitCrusher.sigmoidish
  rw [hst, hsr, hs]

/-- C9: the power parameter has no effect on quantization output: two
quantizers identical except for the power field produce identical crush
output for every input, and in particular the same quantizer after
set_steepness calls that differ only in the power argument (which
set_steepness accepts and stores but the blend math never reads) crushes
identically. -/
theorem crush_power_independent (c1 c2 : BitCrusher) (x s p1 p2 : ℚ)
    (hl : c1.levels = c2.levels) (hst : c1.step = c2.step)
    (hsr : c1.step_reciprocal = c2.step_reciprocal)
    (hs : c1.steepness = c2.steepness) :
    c1.crush x = c2.crush x ∧
      (c1.set_steepness s p1).crush x = (c1.set_steepness s p2).crush x :=
  ⟨crush_congr_except_power c1 c2 x hst hsr hs,
    crush_congr_except_power (c1.set_steepness s p1) (c1.set_steepness s p2) x
      rfl rfl rfl⟩

/-- Witness for C9: two quantizers differing only in their power field
agree at input 1/2, also through set_steepness with powers 1 and 7. -/
theorem crush_power_independent_witness :
    (BitCrusher.crush ⟨3, 1 / 3, 3, 1 / 2, 1⟩ (1 / 2) =
      BitCrusher.crush ⟨3, 1 / 3, 3, 1 / 2, 7⟩ (1 / 2)) ∧
      ((⟨3, 1 / 3, 3, 1 / 2, 1⟩ : BitCrusher).set_steepness (1 / 2) 1).crush (1 / 2) =
        ((⟨3, 1 / 3, 3, 1 / 2, 1⟩ : BitCrusher).set_steepness (1 / 2) 7).crush (1 / 2) :=
  crush_power_independent ⟨3, 1 / 3, 3, 1 / 2, 1⟩ ⟨3, 1 / 3, 3, 1 / 2, 7⟩ (1 / 2)
    (1 / 2) 1 7 rfl rfl rfl rfl

/-- Witness for C1 at steepness 3/4, t = 1/4. -/
theorem sigmoidish_eq_spec_witness :
    (BitCrusher.sigmoidish ⟨3, 1 / 3, 3, 3 / 4, 1⟩ (1 / 4) = 5 / 64) ∧
    ((1 : ℚ) / 2 ≤ 3 / 4 →
      BitCrusher.sigmoidish ⟨3, 1 / 3, 3, 3 / 4, 1⟩ (1 / 4) =
        (1 - 2 * ((3 : ℚ) / 4 - 1 / 2)) * (3 * (1 / 4 : ℚ) ^ 2 - 2 * (1 / 4) ^ 3) +
          2 * ((3 : ℚ) / 4 - 1 / 2) * (if (1 / 4 : ℚ) < 1 / 2 then 0 else 1)) := by
  constructor
  · norm_num [BitCrusher.sigmoidish]
  · exact (sigmoidish_eq_spec ⟨3, 1 / 3, 3, 3 / 4, 1⟩ (1 / 4)
      (by norm_num) (by norm_num) (by norm_num) (by norm_num)).2.2

/-- Envelope follower state: mirrors `struct ExponentialPeak` in dsp.rs. -/
structure ExponentialPeak where
  attack_coeff : ℚ
  inverse_attack_coeff : ℚ
  release_coeff : ℚ
  peak_level : ℚ
deriving DecidableEq

/-- Mirrors `ExponentialPeak::new`, with the two transcendental
coefficients (computed in Rust as `e^(-1/(timeConstant*sampleRate))`)
supplied as rational parameters. -/
def ExponentialPeak.new (attack_coeff release_coeff : ℚ) : ExponentialPeak :=
  { attack_coeff := attack_coeff
    inverse_attack_coeff := 1 - attack_coeff
    release_coeff := release_coeff
    peak_level := 0 }

/-- Mirrors `ExponentialPeak::gain_compensation`, returning the gain and
the updated state (the Rust method mutates `peak_level` in place).
GATE_THRESHOLD is 0.005 = 1/200, GATE_THRESHOLD_RECIPROCAL is
TARGET_LEVEL / GATE_THRESHOLD = 200, TARGET_LEVEL is 1. -/
def ExponentialPeak.gain_compensation (e : ExponentialPeak) (abs_input : ℚ) :
    ℚ × ExponentialPeak :=
  let peak_level :=
    if abs_input > e.peak_level then
      e.attack_coeff * e.peak_level + e.inverse_attack_coeff * abs_input
    else
      e.release_coeff * e.peak_level
  let gain := if peak_level < 1 / 200 then (200 : ℚ) else 1 / peak_level
  (gain, { e with peak_level := peak_level })

/-- Mirrors `ExponentialPeak::reset`. -/
def ExponentialPeak.reset (e : ExponentialPeak) : ExponentialPeak :=
  { e with peak_level := 0 }

/-- Runs a sequence of gain_compensation calls, returning the final state
and the list of returned gains. -/
def ExponentialPeak.run (e : ExponentialPeak) : List ℚ → ExponentialPeak × List ℚ
  | [] => (e, [])
  | x :: xs =>
    let first := e.gain_compensation x
    let rest := first.2.run xs
    (rest.1, first.1 :: rest.2)

/-- The gain formula used by gain_compensation lies in (0, 200] whenever
the peak level it reads is non-negative. -/
theorem gain_formula_bounds (p : ℚ) (hp : 0 ≤ p) :
    0 < (if p < 1 / 200 then (200 : ℚ) else 1 / p) ∧
      (if p < 1 / 200 then (200 : ℚ) else 1 / p) ≤ 200 := by
  split_ifs with h
  · norm_num
  · have hge : (1 : ℚ) / 200 ≤ p := not_lt.mp h
    have hp0 : (0 : ℚ) < p := lt_of_lt_of_le (by norm_num) hge
    constructor
    · positivity
    · rw [div_le_iff₀ hp0]
      nlinarith

/-- One gain_compensation call keeps the peak level non-negative and
returns a gain in (0, 200]. -/
theorem gain_compensation_step (e : ExponentialPeak) (x : ℚ)
    (ha : 0 ≤ e.attack_coeff) (hia : 0 ≤ e.inverse_attack_coeff)
    (hr : 0 ≤ e.release_coeff) (hp : 0 ≤ e.peak_level) (hx : 0 ≤ x) :
    0 ≤ (e.gain_compensation x).2.peak_level ∧
      0 < (e.gain_compensation x).1 ∧ (e.gain_compensation x).1 ≤ 200 := by
  have hpl : 0 ≤ (e.gain_compensation x).2.peak_level := by
    simp only [ExponentialPeak.gain_compensation]
    split_ifs with h
    · exact add_nonneg (mul_nonneg ha hp) (mul_nonneg hia hx)
    · exact mul_nonneg hr hp
  refine ⟨hpl, ?_⟩
  have hform := gain_formula_bounds (e.gain_compensation x).2.peak_level hpl
  exact hform

/-- C3: over any sequence of gain_compensation calls with non-negative
inputs, starting from any non-negative peak level (and envelope
coefficients in the non-negative range guaranteed by construction), the
peak level never becomes negative and every returned gain is strictly
positive and at most 1/0.005 = 200. -/
theorem gain_compensation_invariant (e : ExponentialPeak) (xs : List ℚ)
    (ha : 0 ≤ e.attack_coeff) (hia : 0 ≤ e.inverse_attack_coeff)
    (hr : 0 ≤ e.release_coeff) (hp : 0 ≤ e.peak_level)
    (hxs : ∀ x ∈ xs, 0 ≤ x) :
    0 ≤ (e.run xs).1.peak_level ∧
      ∀ g ∈ (e.run xs).2, 0 < g ∧ g ≤ 200 := by
  induction xs generalizing e with
  | nil =>
    constructor
    · simpa [ExponentialPeak.run] using hp
    · intro g hg
      simp [ExponentialPeak.run] at hg
  | cons x xs ih =>
    have hx : 0 ≤ x := hxs x (List.mem_cons_self x xs)
    have hxs' : ∀ y ∈ xs, 0 ≤ y := fun y hy => hxs y (List.mem_cons_of_mem x hy)
    have hstep := gain_compensation_step e x ha hia hr hp hx
    have hrec := ih (e.gain_compensation x).2 ha hia hr hstep.1 hxs'
    constructor
    · simpa [ExponentialPeak.run] using hrec.1
    · intro g hg
      simp only [ExponentialPeak.run, List.mem_cons] at hg
      rcases hg with h | h
      · rw [h]; exact hstep.2
      · exact hrec.2 g h

/-- Witness for C3 with coefficients 1/2, input sequence [1]. -/
theorem gain_compensation_invariant_witness :
    0 ≤ ((ExponentialPeak.run ⟨1 / 2, 1 / 2, 1 / 2, 0⟩ [1]).1.peak_level) ∧
      ∀ g ∈ (ExponentialPeak.run ⟨1 / 2, 1 / 2, 1 / 2, 0⟩ [1]).2,
        0 < g ∧ g ≤ 200 :=
  gain_compensation_invariant ⟨1 / 2, 1 / 2, 1 / 2, 0⟩ [1]
    (by norm_num) (by norm_num) (by norm_num) (by norm_num)
    (by intro x hx; rw [List.mem_singleton] at hx; rw [hx]; norm_num)

/-- Rust `f32::signum` on the rational model: 1 for positive values and
for (+)0, -1 for negative values (NaN and -0.0 have no rational image). -/
def signum (x : ℚ) : ℚ := if x < 0 then -1 else 1

/-- Top-level crusher state: mirrors `struct InterpolatedBitCrusher`. -/
structure InterpolatedBitCrusher where
  low : BitCrusher
  high : BitCrusher
  fraction : ℚ
  gamma : ℚ
  gamma_reciprocal : ℚ
  gain : ℚ
  gain_reciprocal : ℚ
  auto_gain : Bool
  symmetric_crush : Bool
  peak : ExponentialPeak
deriving DecidableEq

/-- Mirrors `InterpolatedBitCrusher::new`, with the envelope coefficients
supplied as parameters (they are transcendental in the source). -/
def InterpolatedBitCrusher.new (attack_coeff release_coeff : ℚ) :
    InterpolatedBitCrusher :=
  { low := BitCrusher.new
    high := BitCrusher.new
    fraction := 0
    gamma := 1
    gamma_reciprocal := 1
    gain := 1
    gain_reciprocal := 1
    auto_gain := false
    symmetric_crush := false
    peak := ExponentialPeak.new attack_coeff release_coeff }

/-- Two's-complement wrap of an integer into the `i32` range
[-2^31, 2^31), as Rust release-profile arithmetic produces. -/
def wrap_i32 (n : ℤ) : ℤ := (n + 2 ^ 31) % 2 ^ 32 - 2 ^ 31

/-- Mirrors `InterpolatedBitCrusher::set_depth` under Rust release-profile
integer semantics.  The `as u32` cast of the floored/ceiled bit depth
saturates at zero for negative values, modelled by `Int.toNat`.  The
`i32` expression `(1 << b) - 1` masks the shift amount modulo 32 and
wraps the subtraction (at b = 31 the shift lands on i32::MIN and the
subtraction wraps to i32::MAX; debug builds panic instead for b ≥ 31),
modelled by `wrap_i32 (2 ^ (b % 32) - 1)`. -/
def InterpolatedBitCrusher.set_depth (c : InterpolatedBitCrusher)
    (bit_depth : ℚ) : InterpolatedBitCrusher :=
  let bit_floor : ℕ := (⌊bit_depth⌋).toNat
  let bit_ceil : ℕ := (⌈bit_depth⌉).toNat
  { c with
    fraction := bit_depth - (bit_floor : ℚ)
    low := c.low.set_levels (wrap_i32 (2 ^ (bit_floor % 32) - 1))
    high := c.high.set_levels (wrap_i32 (2 ^ (bit_ceil % 32) - 1)) }

/-- Mirrors `InterpolatedBitCrusher::set_auto_gain`. -/
def InterpolatedBitCrusher.set_auto_gain (c : InterpolatedBitCrusher)
    (auto_gain : Bool) : InterpolatedBitCrusher :=
  { c with auto_gain := auto_gain }

/-- Mirrors `InterpolatedBitCrusher::set_gain` (caller supplies both the
gain and its reciprocal). -/
def InterpolatedBitCrusher.set_gain (c : InterpolatedBitCrusher)
    (gain gain_reciprocal : ℚ) : InterpolatedBitCrusher :=
  { c with gain := gain, gain_reciprocal := gain_reciprocal }

/-- Mirrors `InterpolatedBitCrusher::set_gamma`. -/
def InterpolatedBitCrusher.set_gamma (c : InterpolatedBitCrusher)
    (gamma gamma_reciprocal : ℚ) : InterpolatedBitCrusher :=
  { c with gamma := gamma, gamma_reciprocal := gamma_reciprocal }

/-- Mirrors `InterpolatedBitCrusher::set_steepness`. -/
def InterpolatedBitCrusher.set_steepness (c : InterpolatedBitCrusher)
    (steepness power : ℚ) : InterpolatedBitCrusher :=
  { c with
    low := c.low.set_steepness steepness power
    high := c.high.set_steepness steepness power }

/-- Mirrors `InterpolatedBitCrusher::set_crush_mode`. -/
def InterpolatedBitCrusher.set_crush_mode (c : InterpolatedBitCrusher)
    (symmetric : Bool) : InterpolatedBitCrusher :=
  { c with symmetric_crush := symmetric }

/-- Mirrors `InterpolatedBitCrusher::symmetric_quantize`. -/
def InterpolatedBitCrusher.symmetric_quantize (c : InterpolatedBitCrusher)
    (gamma_transformed : ℚ) : ℚ :=
  let crushed_high := c.high.crush gamma_transformed
  let crushed_low := c.low.crush gamma_transformed
  crushed_low + c.fraction * (crushed_high - crushed_low)

/-- Mirrors `InterpolatedBitCrusher::asymmetric_quantize`.  THRESHOLD is
0.05 = 1/20 and THRESHOLD_RECIPROCAL is 20. -/
def InterpolatedBitCrusher.asymmetric_quantize (c : InterpolatedBitCrusher)
    (sign_input gamma_transformed : ℚ) : ℚ :=
  let crush_input := (gamma_transformed * sign_input + 1) * (1 / 2)
  let quantized := c.symmetric_quantize crush_input
  let quantized2 :=
    if gamma_transformed < 1 / 20 then
      let frac := gamma_transformed * 20
      quantized * frac + crush_input * (1 - frac)
    else quantized
  sign_input * (quantized2 * 2 - 1)

/-- Mirrors `InterpolatedBitCrusher::apply`, with `f32::powf` supplied as
the parameter `powf`.  Returns the output sample together with the
updated state (the Rust method mutates the envelope follower). -/
def InterpolatedBitCrusher.apply (powf : ℚ → ℚ → ℚ)
    (c : InterpolatedBitCrusher) (input : ℚ) : ℚ × InterpolatedBitCrusher :=
  let abs_input := |input|
  let sign_input := signum input
  let gain_peak :=
    if c.auto_gain then c.peak.gain_compensation abs_input else (c.gain, c.peak)
  let gain := gain_peak.1
  let clamped := min (gain * abs_input) 1
  let gamma_transformed := powf clamped c.gamma_reciprocal
  let quantized :=
    if c.symmetric_crush then c.symmetric_quantize gamma_transformed
    else c.asymmetric_quantize sign_input gamma_transformed
  let out :=
    if c.auto_gain then sign_input * powf quantized c.gamma / gain
    else sign_input * c.gain_reciprocal * powf quantized c.gamma
  (out, { c with peak := gain_peak.2 })

/-- Mirrors `InterpolatedBitCrusher::reset`. -/
def InterpolatedBitCrusher.reset (c : InterpolatedBitCrusher) :
    InterpolatedBitCrusher :=
  { c with peak := c.peak.reset }

/-- Asymmetric quantization stage written exactly as the specification
describes it: crushInput = (warped*sign + 1)/2, symmetric blend on
crushInput, and exactly when warped < 0.05 the quantized value q is
replaced by q*(warped/0.05) + crushInput*(1 - warped/0.05), before the
final remap to sign*(2*q - 1). -/
def asymmetric_quantize_spec (c : InterpolatedBitCrusher)
    (sign_input warped : ℚ) : ℚ :=
  let crush_input := (warped * sign_input + 1) / 2
  let q := c.symmetric_quantize crush_input
  let q2 :=
    if warped < 1 / 20 then
      q * (warped / (1 / 20)) + crush_input * (1 - warped / (1 / 20))
    else q
  sign_input * (2 * q2 - 1)

/-- C7: the asymmetric quantization stage of the code coincides with the
spec formula, including the exact threshold condition warped < 0.05. -/
theorem asymmetric_quantize_eq_spec (c : InterpolatedBitCrusher)
    (sign_input warped : ℚ) :
    c.asymmetric_quantize sign_input warped =
      asymmetric_quantize_spec c sign_input warped := by
  simp only [InterpolatedBitCrusher.asymmetric_quantize, asymmetric_quantize_spec]
  rw [show (warped * sign_input + 1) * (1 / 2) = (warped * sign_input + 1) / 2 by ring]
  split_ifs with h
  · ring
  · ring

/-- C8 counterexample: `set_depth` does not clamp the bit depth: at bit
depth 1/2 the low quantizer's level count becomes 2^0 - 1 = 0, violating
the claim that level counts are always at least 1. -/
theorem set_depth_no_clamp_counterexample :
    ((InterpolatedBitCrusher.new (1 / 2) (1 / 2)).set_depth (1 / 2)).low.levels = 0 := by
  have hf : ⌊(1 / 2 : ℚ)⌋ = 0 := by
    rw [Int.floor_eq_zero_iff]
    constructor <;> norm_num
  simp only [InterpolatedBitCrusher.set_depth, BitCrusher.set_levels, hf,
    Int.toNat_zero, Nat.zero_mod, pow_zero]
  norm_num [wrap_i32]

/-- Integers already inside the i32 range are fixed by the wrap. -/
theorem wrap_i32_eq_self (n : ℤ) (h1 : -(2 ^ 31) ≤ n) (h2 : n < 2 ^ 31) :
    wrap_i32 n = n := by
  have e31 : (2 : ℤ) ^ 31 = 2147483648 := by norm_num
  have e32 : (2 : ℤ) ^ 32 = 4294967296 := by norm_num
  unfold wrap_i32
  rw [e31] at h1 h2 ⊢
  rw [e32]
  omega

/-- For bit counts between 1 and 16 the masked, wrapping i32 computation
of (1 << b) - 1 gives an unwrapped value of at least 1. -/
theorem levels_of_bits_in_range (b : ℕ) (h1 : 1 ≤ b) (h2 : b ≤ 16) :
    1 ≤ wrap_i32 (2 ^ (b % 32) - 1) := by
  have hb32 : b % 32 = b := Nat.mod_eq_of_lt (by omega)
  rw [hb32]
  have hlo : (2 : ℤ) ^ 1 ≤ 2 ^ b := pow_le_pow_right₀ (by norm_num) h1
  have hhi : (2 : ℤ) ^ b ≤ 2 ^ 16 := pow_le_pow_right₀ (by norm_num) h2
  have e1 : (2 : ℤ) ^ 1 = 2 := by norm_num
  have hA : (1 : ℤ) ≤ 2 ^ b - 1 := by rw [e1] at hlo; linarith
  have hB : (2 : ℤ) ^ b - 1 < 2 ^ 31 := by
    have e16 : (2 : ℤ) ^ 16 = 65536 := by norm_num
    have e31 : (2 : ℤ) ^ 31 = 2147483648 := by norm_num
    rw [e31]
    rw [e16] at hhi
    linarith
  rw [wrap_i32_eq_self (2 ^ b - 1) (by linarith) hB]
  exact hA

/-- The wrap model reproduces the release-profile shift overflow: at bit
depth 32 the shift amount is masked to 0, so the level count collapses
to (1 << 0) - 1 = 0 again. -/
theorem set_depth_32_wraps_to_zero :
    ((InterpolatedBitCrusher.new (1 / 2) (1 / 2)).set_depth 32).low.levels = 0 := by
  have h32 : (32 : ℚ) = ((32 : ℤ) : ℚ) := by norm_num
  have ht : ((32 : ℤ)).toNat = 32 := rfl
  have hm : (32 : ℕ) % 32 = 0 := by norm_num
  simp only [InterpolatedBitCrusher.set_depth, h32, Int.floor_intCast,
    Int.ceil_intCast, ht, hm, BitCrusher.set_levels, pow_zero]
  norm_num [wrap_i32]

/-- C8 amended: set_depth itself performs no clamping; for bit depth in
the documented host range [1, 16], both derived level counts are at
least 1, so the derived step sizes never divide by zero.  (Outside that
range the i32 arithmetic wraps: depth 32 yields 0 levels again.) -/
theorem set_depth_levels_pos (c : InterpolatedBitCrusher) (bit_depth : ℚ)
    (hb1 : 1 ≤ bit_depth) (hb16 : bit_depth ≤ 16) :
    1 ≤ (c.set_depth bit_depth).low.levels ∧
      1 ≤ (c.set_depth bit_depth).high.levels := by
  have hf1 : 1 ≤ ⌊bit_depth⌋ := by
    rw [Int.le_floor]; exact_mod_cast hb1
  have hf16 : ⌊bit_depth⌋ ≤ 16 := by
    have h := le_trans (Int.floor_le bit_depth) hb16
    exact_mod_cast h
  have hc1 : 1 ≤ ⌈bit_depth⌉ := le_trans hf1 (Int.floor_le_ceil bit_depth)
  have hc16 : ⌈bit_depth⌉ ≤ 16 := by
    rw [Int.ceil_le]; exact_mod_cast hb16
  constructor
  · show 1 ≤ wrap_i32 (2 ^ ((⌊bit_depth⌋).toNat % 32) - 1)
    exact levels_of_bits_in_range _ (by omega) (by omega)
  · show 1 ≤ wrap_i32 (2 ^ ((⌈bit_depth⌉).toNat % 32) - 1)
    exact levels_of_bits_in_range _ (by omega) (by omega)

/-- Witness for the amended C8 at bit depth 3/2. -/
theorem set_depth_levels_pos_witness :
    1 ≤ ((InterpolatedBitCrusher.new (1 / 2) (1 / 2)).set_depth (3 / 2)).low.levels ∧
      1 ≤ ((InterpolatedBitCrusher.new (1 / 2) (1 / 2)).set_depth (3 / 2)).high.levels :=
  set_depth_levels_pos (InterpolatedBitCrusher.new (1 / 2) (1 / 2)) (3 / 2)
    (by norm_num) (by norm_num)

/-- Crush maps 0 to 0 for every configuration (0 lies exactly on the
grid, so the exact-grid-point branch returns 0 * step). -/
theorem crush_zero (c : BitCrusher) : c.crush 0 = 0 := by
  simp [BitCrusher.crush]

/-- The symmetric blend maps 0 to 0 for every configuration. -/
theorem symmetric_quantize_zero (c : InterpolatedBitCrusher) :
    c.symmetric_quantize 0 = 0 := by
  simp [InterpolatedBitCrusher.symmetric_quantize, crush_zero]

/-- The asymmetric stage maps the zero-input situation (sign 1, warped 0)
to 0: the near-zero blend fully replaces the quantized value by the
unquantized 1/2, which remaps to 0. -/
theorem asymmetric_quantize_warped_zero (c : InterpolatedBitCrusher) :
    c.asymmetric_quantize (signum 0) 0 = 0 := by
  simp only [InterpolatedBitCrusher.asymmetric_quantize, signum]
  norm_num

/-- Apply returns 0 at input 0 whenever the power function maps base 0 to
0 at the configured exponents, in either crush mode and with or without
auto gain. -/
theorem apply_zero (powf : ℚ → ℚ → ℚ) (c : InterpolatedBitCrusher)
    (hpγi : powf 0 c.gamma_reciprocal = 0) (hpγ : powf 0 c.gamma = 0) :
    (InterpolatedBitCrusher.apply powf c 0).1 = 0 := by
  simp only [InterpolatedBitCrusher.apply, abs_zero, mul_zero]
  rw [min_eq_left zero_le_one, hpγi, symmetric_quantize_zero,
    asymmetric_quantize_warped_zero, ite_self, hpγ]
  simp

/-- C6: apply(0) = 0 in both symmetric and asymmetric crush modes, for
every configuration with positive gamma, gamma reciprocal and gain, with
or without auto gain (powf models Rust f32::powf, which maps 0^e to 0 for
positive e). -/
theorem apply_zero_both_modes (powf : ℚ → ℚ → ℚ) (c : InterpolatedBitCrusher)
    (hγ : 0 < c.gamma) (hγi : 0 < c.gamma_reciprocal) (hgain : 0 < c.gain)
    (hpow : ∀ e, 0 < e → powf 0 e = 0) :
    (InterpolatedBitCrusher.apply powf { c with symmetric_crush := true } 0).1 = 0 ∧
      (InterpolatedBitCrusher.apply powf { c with symmetric_crush := false } 0).1 = 0 :=
  ⟨apply_zero powf { c with symmetric_crush := true } (hpow _ hγi) (hpow _ hγ),
    apply_zero powf { c with symmetric_crush := false } (hpow _ hγi) (hpow _ hγ)⟩

/-- Witness for C6 on the default configuration. -/
theorem apply_zero_both_modes_witness :
    (InterpolatedBitCrusher.apply (fun a _ => a)
      { InterpolatedBitCrusher.new (1 / 2) (1 / 2) with symmetric_crush := true } 0).1 = 0 ∧
      (InterpolatedBitCrusher.apply (fun a _ => a)
        { InterpolatedBitCrusher.new (1 / 2) (1 / 2) with symmetric_crush := false } 0).1 = 0 :=
  apply_zero_both_modes (fun a _ => a) (InterpolatedBitCrusher.new (1 / 2) (1 / 2))
    (by show (0 : ℚ) < 1; norm_num) (by show (0 : ℚ) < 1; norm_num)
    (by show (0 : ℚ) < 1; norm_num) (fun e _ => rfl)

/-- For nonzero arguments, Rust signum negates with its argument. -/
theorem signum_neg (x : ℚ) (hx : x ≠ 0) : signum (-x) = -signum x := by
  rcases lt_trichotomy x 0 with h | h | h
  · simp only [signum]
    rw [if_neg (by linarith : ¬ -x < 0), if_pos h]
    norm_num
  · exact absurd h hx
  · simp only [signum]
    rw [if_pos (by linarith : -x < 0), if_neg (by linarith : ¬ x < 0)]

/-- C10: in symmetric mode, apply is an odd function of its input, and
the runs on x and -x leave the crusher (including the envelope follower
peak) in identical states. -/
theorem apply_symmetric_odd (powf : ℚ → ℚ → ℚ) (c : InterpolatedBitCrusher) (x : ℚ)
    (hsym : c.symmetric_crush = true)
    (hpγi : powf 0 c.gamma_reciprocal = 0) (hpγ : powf 0 c.gamma = 0) :
    (InterpolatedBitCrusher.apply powf c (-x)).1 =
      -(InterpolatedBitCrusher.apply powf c x).1 ∧
      (InterpolatedBitCrusher.apply powf c (-x)).2 =
        (InterpolatedBitCrusher.apply powf c x).2 := by
  rcases eq_or_ne x 0 with hx | hx
  · subst hx
    rw [neg_zero]
    refine ⟨?_, rfl⟩
    rw [apply_zero powf c hpγi hpγ]
    norm_num
  · have hsgn := signum_neg x hx
    constructor
    · simp only [InterpolatedBitCrusher.apply, abs_neg, hsym, hsgn]
      cases hauto : c.auto_gain <;> simp <;> ring
    · simp only [InterpolatedBitCrusher.apply, abs_neg]

/-- Witness for C10 at x = 1/3 on the default configuration switched to
symmetric mode. -/
theorem apply_symmetric_odd_witness :
    (InterpolatedBitCrusher.apply (fun a _ => a)
      ((InterpolatedBitCrusher.new (1 / 2) (1 / 2)).set_crush_mode true) (-(1 / 3))).1 =
      -(InterpolatedBitCrusher.apply (fun a _ => a)
        ((InterpolatedBitCrusher.new (1 / 2) (1 / 2)).set_crush_mode true) (1 / 3)).1 ∧
      (InterpolatedBitCrusher.apply (fun a _ => a)
        ((InterpolatedBitCrusher.new (1 / 2) (1 / 2)).set_crush_mode true) (-(1 / 3))).2 =
        (InterpolatedBitCrusher.apply (fun a _ => a)
          ((InterpolatedBitCrusher.new (1 / 2) (1 / 2)).set_crush_mode true) (1 / 3)).2 :=
  apply_symmetric_odd (fun a _ => a)
    ((InterpolatedBitCrusher.new (1 / 2) (1 / 2)).set_crush_mode true) (1 / 3)
    rfl rfl rfl

/-- At the exact integer bit depth 16, set_depth yields blend fraction 0
and 2^16 - 1 = 65535 levels on both quantizers. -/
theorem set_depth_16_eq (c : InterpolatedBitCrusher) :
    c.set_depth 16 =
      { c with
        fraction := 0
        low := c.low.set_levels 65535
        high := c.high.set_levels 65535 } := by
  have h16 : (16 : ℚ) = ((16 : ℤ) : ℚ) := by norm_num
  have ht : ((16 : ℤ)).toNat = 16 := rfl
  have hm : (16 : ℕ) % 32 = 16 := by norm_num
  simp only [InterpolatedBitCrusher.set_depth, h16, Int.floor_intCast,
    Int.ceil_intCast, ht, hm]
  norm_num [wrap_i32]

/-- C2: with auto gain off, symmetric mode, unit gamma and gain, low
steepness in the unit interval, and bit depth exactly 16, apply
reproduces every input in [-1, 1] within one quantization step
1/(2^16 - 1). -/
theorem apply_roundtrip_depth16 (powf : ℚ → ℚ → ℚ)
    (c : InterpolatedBitCrusher) (x : ℚ)
    (hauto : c.auto_gain = false) (hsym : c.symmetric_crush = true)
    (hγ : c.gamma = 1) (hγi : c.gamma_reciprocal = 1)
    (hg : c.gain = 1) (hgi : c.gain_reciprocal = 1)
    (hlo0 : 0 ≤ c.low.steepness) (hlo1 : c.low.steepness ≤ 1)
    (hhi0 : 0 ≤ c.high.steepness) (hhi1 : c.high.steepness ≤ 1)
    (hpow : ∀ y, powf y 1 = y)
    (hx0 : -1 ≤ x) (hx1 : x ≤ 1) :
    |(InterpolatedBitCrusher.apply powf (c.set_depth 16) x).1 - x| ≤ 1 / 65535 := by
  rw [set_depth_16_eq]
  have habs1 : |x| ≤ 1 := abs_le.mpr ⟨hx0, hx1⟩
  simp only [InterpolatedBitCrusher.apply, InterpolatedBitCrusher.symmetric_quantize,
    hauto, hsym, hγ, hγi, hg, hgi, hpow, Bool.false_eq_true, if_false, if_true,
    one_mul, mul_one, zero_mul, add_zero]
  rw [min_eq_left habs1]
  have hq := crush_within_one_step (c.low.set_levels 65535) |x| rfl rfl
    (by show (1 : ℤ) ≤ 65535; norm_num) hlo0 hlo1
  have hlv : (c.low.set_levels 65535).levels = 65535 := rfl
  rw [hlv] at hq
  norm_num at hq
  rcases lt_or_le x 0 with hneg | hpos
  · have hs : signum x = -1 := by
      simp only [signum]; rw [if_pos hneg]
    have habs : |x| = -x := abs_of_neg hneg
    rw [habs] at hq
    rw [hs, habs]
    have heq : (-1 : ℚ) * (c.low.set_levels 65535).crush (-x) - x =
        -((c.low.set_levels 65535).crush (-x) - -x) := by ring
    rw [heq, abs_neg]
    linarith [hq]
  · have hs : signum x = 1 := by
      simp only [signum]; rw [if_neg (not_lt.mpr hpos)]
    have habs : |x| = x := abs_of_nonneg hpos
    rw [habs] at hq
    rw [hs, habs, one_mul]
    linarith [hq]

/-- Witness for C2 at x = 1/3 on the default configuration switched to
symmetric mode, with powf instantiated by a function that is the identity
at exponent 1. -/
theorem apply_roundtrip_depth16_witness :
    |(InterpolatedBitCrusher.apply (fun a _ => a)
        (((InterpolatedBitCrusher.new (1 / 2) (1 / 2)).set_crush_mode true).set_depth 16)
        (1 / 3)).1 - 1 / 3| ≤ 1 / 65535 :=
  apply_roundtrip_depth16 (fun a _ => a)
    ((InterpolatedBitCrusher.new (1 / 2) (1 / 2)).set_crush_mode true) (1 / 3)
    rfl rfl rfl rfl rfl rfl
    (by show (0 : ℚ) ≤ 0; norm_num) (by show (0 : ℚ) ≤ 1; norm_num)
    (by show (0 : ℚ) ≤ 0; norm_num) (by show (0 : ℚ) ≤ 1; norm_num)
    (fun y => rfl) (by norm_num) (by norm_num)
